import Mathlib

/-!
Verification of the docstring parser of the stringly python binding.

The development shallowly embeds the two source files:
* `src/text.rs` — the line normalizer (`split_and_dedent`) and the
  peekable line cursor (`VecLineIter`) with its nested indent scopes
  (`Dedent`);
* `src/lib.rs` — `DocString::new`, the block parser producing the
  documentation record.

Strings are modelled as lists of characters (`Str`); Rust's byte
indices coincide with character positions for the inputs considered.
A nested stack of `Dedent` scopes over a `VecLineIter` is modelled as
the base line list, a base index and a list of scope indents
(innermost first).  Loops are modelled with explicit fuel; callers
always pass enough fuel, and fuel exhaustion is a distinguished
outcome.  Collaborator functions from the external stringly crate
(`deprettify`, `safesplit`, `safesplit_once`, `unprotect`) are out of
scope of the repository and are passed as a record of functions.
-/

set_option maxRecDepth 10000

abbrev Str := List Char

/-- ASCII fragment of Rust `char::is_whitespace` (the inputs considered
contain no non-ASCII whitespace). -/
def isRustWs (c : Char) : Bool :=
  c == ' ' || c == '\t' || c == '\n' || c == '\r' || c == '\x0b' || c == '\x0c'

/-- Rust `str::trim_end`: remove trailing whitespace. -/
def rustTrimEnd (l : Str) : Str := (l.reverse.dropWhile isRustWs).reverse

/-- Rust `str::trim_start`: remove leading whitespace. -/
def rustTrimStart (l : Str) : Str := l.dropWhile isRustWs

/-- Rust `str::trim`. -/
def rustTrim (l : Str) : Str := rustTrimStart (rustTrimEnd l)

/-- Number of leading space characters of a line:
`line.len() - line.trim_start_matches(" ").len()` (src/text.rs:58, 125). -/
def leadingSpaces (l : Str) : Nat := l.length - (l.dropWhile (· == ' ')).length

/-- Rust `str::split('\n')`: always returns at least one piece. -/
def splitNl : Str → List Str
  | [] => [[]]
  | c :: rest =>
    if c = '\n' then [] :: splitNl rest
    else
      match splitNl rest with
      | [] => [[c]]
      | p :: ps => (c :: p) :: ps

/-- Rust `str::split_terminator('\n')`: as `splitNl`, except that a
trailing empty piece is skipped. -/
def splitTermNl (s : Str) : List Str :=
  match (splitNl s).getLast? with
  | some [] => (splitNl s).dropLast
  | _ => splitNl s

/-- Join lines with a separator character (used to build inputs in
statements). -/
def joinSep (sep : Char) : List Str → Str
  | [] => []
  | [l] => l
  | l :: l2 :: ls => l ++ sep :: joinSep sep (l2 :: ls)

/-- `JoinLines::join_lines` applied to a plain list: every item is
followed by a `'\n'` terminator (src/text.rs:174–182). -/
def joinLinesList : List Str → Str
  | [] => []
  | l :: rest => l ++ '\n' :: joinLinesList rest

/-- The candidate indent of `split_and_dedent` (src/text.rs:10–12): the
leading-whitespace prefix (`trim_start`) of the first non-empty line
after the first line of the raw input, or empty if there is none. -/
def sadIndent (doc : Str) : Str :=
  match ((splitTermNl doc).drop 1).find? (fun l => !l.isEmpty) with
  | some line => line.take (line.length - (rustTrimStart line).length)
  | none => []

/-- The dedenting loop of `split_and_dedent` (src/text.rs:21–30) over the
right-trimmed non-first lines; `none` models the early fallback return
on unmatched indentation. -/
def dedentLines (indent : Str) : List Str → Option (List Str)
  | [] => some []
  | l :: ls =>
    if l.isEmpty then (dedentLines indent ls).map (fun r => [] :: r)
    else if indent.isPrefixOf l then
      (dedentLines indent ls).map (fun r => l.drop indent.length :: r)
    else none

/-- `split_and_dedent` (src/text.rs:7–32). -/
def split_and_dedent (doc : Str) : List Str :=
  let indent := sadIndent doc
  match (splitNl doc).map rustTrimEnd with
  | [] => []
  | first :: rest =>
    match dedentLines indent rest with
    | some ds => first :: ds
    | none => (splitTermNl doc).map rustTrimEnd

/-- `VecLineIter::peek` (src/text.rs:90–92). -/
def peekIdx (lines : List Str) (i : Nat) : Option Str := lines[i]?

/-- `VecLineIter::peek_unempty` (src/text.rs:93–101): the first
non-empty line at or after position `i`. -/
def peekUnemptyIdx (lines : List Str) (i : Nat) : Option Str :=
  (lines.drop i).find? (fun l => !l.isEmpty)

/-- `VecLineIter::gobble_empty_lines` (src/text.rs:102–110): the index
advanced past the run of empty lines starting at `i`. -/
def gobbleIdx (lines : List Str) (i : Nat) : Nat :=
  i + ((lines.drop i).takeWhile (fun l => l.isEmpty)).length

/-- `Dedent::dedent_line` (src/text.rs:124–130). -/
def dedentLine (indent : Nat) (l : Str) : Option Str :=
  if indent ≤ leadingSpaces l then some (l.drop indent) else none

/-- `peek_unempty` through a stack of nested `Dedent` scopes (innermost
indent first) over a `VecLineIter` (src/text.rs:147–149). -/
def peekUnemptyAt (lines : List Str) (i : Nat) : List Nat → Option Str
  | [] => peekUnemptyIdx lines i
  | n :: stack => (peekUnemptyAt lines i stack).bind (dedentLine n)

/-- `next` through a stack of nested `Dedent` scopes: the yielded line
and the new base index.  The `Dedent` case is src/text.rs:133–141: the
next non-empty line must dedent, then the parent is advanced by one,
and an empty parent line is yielded as such. -/
def nextAt (lines : List Str) (i : Nat) : List Nat → Option Str × Nat
  | [] =>
    match lines[i]? with
    | some l => (some l, i + 1)
    | none => (none, i)
  | n :: stack =>
    match peekUnemptyAt lines i (n :: stack) with
    | none => (none, i)
    | some u =>
      match nextAt lines i stack with
      | (some l, i2) => (some (if l.isEmpty then l else u), i2)
      | (none, i2) => (none, i2)

/-- `LineIter::next_if_unempty` (trait default, src/text.rs:43–49) at
the base level: yields the current line and the advanced index if the
current line is non-empty. -/
def nextIfUnemptyIdx (lines : List Str) (i : Nat) : Option (Str × Nat) :=
  match lines[i]? with
  | some l => if l.isEmpty then none else some (l, i + 1)
  | none => none

/-- `LineIter::dedent` (src/text.rs:55–68): gobble empty lines on the
parent, then compute the working indent from the parent's next
non-empty line; returns the new base index and the extended scope
stack. -/
def dedentNew (lines : List Str) (i : Nat) (stack : List Nat) (minIndent : Nat) :
    Nat × List Nat :=
  let i2 := gobbleIdx lines i
  let ind :=
    match peekUnemptyAt lines i2 stack with
    | some line =>
      if minIndent ≤ leadingSpaces line then leadingSpaces line
      else leadingSpaces line + 1
    | none => 0
  (i2, ind :: stack)

/-- The collaborator functions from the external stringly crate
consumed by `DocString::new` (src/lib.rs:83); their implementation is
out of scope of this repository and only their interface is specified. -/
structure Collab where
  deprettify : Str → Except Unit Str
  safesplit : Str → Char → List Str
  safesplit_once : Str → Char → Except Unit (Str × Str)
  unprotect : Str → Str

/-- The fields of the `DocString` record (src/lib.rs:33–41). -/
structure Record where
  doc : Str
  text : Str
  defaults : List (Str × Str)
  argdocs : List (Str × Str)
  presets : List (Str × List (Str × Str))
deriving DecidableEq

/-- Outcome of `DocString::new`: a record, a returned structured error,
a process abort via `unwrap`, or fuel exhaustion of the model. -/
inductive POut where
  | ok (r : Record)
  | err (msg : Str)
  | panicked
  | fuelOut
deriving DecidableEq

/-- Rust `str::find` of a substring pattern: index of its first
occurrence. -/
def findSub (pat : Str) : Str → Option Nat
  | [] => if pat.isEmpty then some 0 else none
  | c :: rest =>
    if pat.isPrefixOf (c :: rest) then some 0
    else (findSub pat rest).map (· + 1)

/-- The argument-spec match of `DocString::new` (src/lib.rs:67–73):
returns the optional `defaults` entry and the argument name used for
`argdocs`. -/
def parseArgSpec (arg : Str) : Option (Str × Str) × Str :=
  match findSub " [".data arg, arg.getLast? == some ']' with
  | some index, true =>
    (some (arg.take index, (arg.take (arg.length - 1)).drop (index + 2)),
     arg.take index)
  | _, _ => (none, arg)

/-- `join_lines` over a dedent-scope stack: iterate `next` to
exhaustion, appending a `'\n'` after each line; also returns the final
base index.  `none` is fuel exhaustion. -/
def joinLinesAt (lines : List Str) (stack : List Nat) :
    Nat → Nat → Option (Str × Nat)
  | 0, _ => none
  | fuel + 1, i =>
    match nextAt lines i stack with
    | (none, i2) => some ([], i2)
    | (some l, i2) =>
      (joinLinesAt lines stack fuel i2).map (fun r => (l ++ '\n' :: r.1, r.2))

/-- The paragraph-copying loop of `DocString::new` (src/lib.rs:101–104):
copy consecutive non-empty lines, each followed by `'\n'`. -/
def copyPara (lines : List Str) : Nat → Nat → Str → Option (Str × Nat)
  | 0, _, _ => none
  | fuel + 1, i, text =>
    match nextIfUnemptyIdx lines i with
    | some (l, i2) => copyPara lines fuel i2 (text ++ l ++ ['\n'])
    | none => some (text, i)

/-- The arguments-block loop of `DocString::new` (src/lib.rs:65–76),
inside the indent-3 scope given by `stack`. -/
def argLoop (lines : List Str) (stack : List Nat) :
    Nat → Nat → List (Str × Str) → List (Str × Str) →
    Option (Nat × List (Str × Str) × List (Str × Str))
  | 0, _, _, _ => none
  | fuel + 1, i, defaults, argdocs =>
    match nextAt lines i stack with
    | (none, i2) => some (i2, defaults, argdocs)
    | (some line, i2) =>
      let arg := rustTrim line
      let p := parseArgSpec arg
      let defaults2 :=
        match p.1 with
        | some kv => defaults ++ [kv]
        | none => defaults
      let d := dedentNew lines i2 stack 2
      match joinLinesAt lines d.2 (lines.length + 1) d.1 with
      | none => none
      | some (joined, i3) =>
        argLoop lines stack fuel i3 defaults2
          (argdocs ++ [(p.2, rustTrimEnd joined)])

/-- The parameter-item loop of the presets handler (src/lib.rs:86–92):
split each item once on `'='`, unprotect both sides, or fail with the
structured error naming the preset and the unprotected item. -/
def paramFold (c : Collab) (preset : Str) :
    List Str → List (Str × Str) → Except Str (List (Str × Str))
  | [], acc => .ok acc
  | si :: rest, acc =>
    match c.safesplit_once si '=' with
    | .ok kv => paramFold c preset rest (acc ++ [(c.unprotect kv.1, c.unprotect kv.2)])
    | .error _ =>
      .error ("preset ".data ++ preset ++ " has no value for argument ".data ++
        c.unprotect si)

/-- Outcome of the presets-block loop. -/
inductive PresetOut where
  | done (i : Nat) (presets : List (Str × List (Str × Str)))
  | failed (msg : Str)
  | panicked
  | fuelOut
deriving DecidableEq

/-- The presets-block loop of `DocString::new` (src/lib.rs:80–94),
inside the indent-3 scope given by `stack`.  The `unwrap` on the
`deprettify` result (src/lib.rs:85, marked `FIXME` in the source)
turns a deprettify failure into a panic. -/
def presetLoop (c : Collab) (lines : List Str) (stack : List Nat) :
    Nat → Nat → List (Str × List (Str × Str)) → PresetOut
  | 0, _, _ => .fuelOut
  | fuel + 1, i, presets =>
    match nextAt lines i stack with
    | (none, i2) => .done i2 presets
    | (some line, i2) =>
      let preset := rustTrim line
      let d := dedentNew lines i2 stack 2
      match joinLinesAt lines d.2 (lines.length + 1) d.1 with
      | none => .fuelOut
      | some (joined, i3) =>
        match c.deprettify joined with
        | .error _ => .panicked
        | .ok ps =>
          match paramFold c preset (c.safesplit ps ',') [] with
          | .error e => .failed e
          | .ok parameters =>
            presetLoop c lines stack fuel i3 (presets ++ [(preset, parameters)])

/-- The arguments-block marker (src/lib.rs:62). -/
def argMarker : Str := ".. arguments::".data

/-- The presets-block marker (src/lib.rs:77). -/
def presetMarker : Str := ".. presets::".data

/-- The top-level block loop of `DocString::new` (src/lib.rs:59–106),
together with the construction of the final record (src/lib.rs:108). -/
def parseLoop (c : Collab) (lines : List Str) :
    Nat → Nat → Str → List (Str × Str) → List (Str × Str) →
    List (Str × List (Str × Str)) → POut
  | 0, _, _, _, _, _ => .fuelOut
  | fuel + 1, i, text, defaults, argdocs, presets =>
    match peekUnemptyIdx lines i with
    | none => .ok ⟨joinLinesList lines, rustTrim text, defaults, argdocs, presets⟩
    | some line =>
      let i1 := gobbleIdx lines i
      if line = argMarker then
        let i2 := match lines[i1]? with | some _ => i1 + 1 | none => i1
        let d := dedentNew lines i2 [] 3
        match argLoop lines d.2 (lines.length + 1) d.1 defaults argdocs with
        | none => .fuelOut
        | some (i3, defaults2, argdocs2) =>
          parseLoop c lines fuel i3 text defaults2 argdocs2 presets
      else if line = presetMarker then
        let i2 := match lines[i1]? with | some _ => i1 + 1 | none => i1
        let d := dedentNew lines i2 [] 3
        match presetLoop c lines d.2 (lines.length + 1) d.1 presets with
        | .done i3 presets2 => parseLoop c lines fuel i3 text defaults argdocs presets2
        | .failed e => .err e
        | .panicked => .panicked
        | .fuelOut => .fuelOut
      else
        let text1 := if text.isEmpty then text else text ++ ['\n']
        match copyPara lines (lines.length + 1) i1 text1 with
        | none => .fuelOut
        | some (text2, i3) =>
          parseLoop c lines fuel i3 text2 defaults argdocs presets

/-- `DocString::new` (src/lib.rs:46–109): normalize the raw docstring,
record the joined dedented text, gobble leading empty lines, and run
the block loop. -/
def docStringNew (c : Collab) (doc : Str) : POut :=
  let lines := split_and_dedent doc
  parseLoop c lines (lines.length + 1) (gobbleIdx lines 0) [] [] [] []

/-- Modelled from the spec: the external `unprotect` (§6) removes
protection markers, returning the original content; protection markers
are modelled as an outer pair of braces. -/
def specUnprotect (s : Str) : Str :=
  match s with
  | c :: rest =>
    if c = '\x7b' && rest.getLast? == some '\x7d' then rest.dropLast else s
  | [] => []

/-- Modelled from the spec: helper of `specSafesplit`, tracking the
protection (brace) depth so that protected separators are atomic. -/
def specSafesplitGo (sep : Char) : Str → Nat → Str → List Str
  | [], _, acc => [acc.reverse]
  | c :: rest, depth, acc =>
    if c = sep && depth = 0 then
      acc.reverse :: specSafesplitGo sep rest 0 []
    else
      specSafesplitGo sep rest
        (if c = '\x7b' then depth + 1 else if c = '\x7d' then depth - 1 else depth)
        (c :: acc)

/-- Modelled from the spec: the external `safesplit` (§6) splits on the
given character, never inside a protected substring. -/
def specSafesplit (s : Str) (sep : Char) : List Str :=
  specSafesplitGo sep s 0 []

/-- Modelled from the spec: helper of `specSafesplitOnce`. -/
def specSafesplitOnceGo (sep : Char) : Str → Nat → Str → Except Unit (Str × Str)
  | [], _, _ => .error ()
  | c :: rest, depth, acc =>
    if c = sep && depth = 0 then .ok (acc.reverse, rest)
    else
      specSafesplitOnceGo sep rest
        (if c = '\x7b' then depth + 1 else if c = '\x7d' then depth - 1 else depth)
        (c :: acc)

/-- Modelled from the spec: the external `safesplitOnce` (§6) splits at
the first unprotected separator, failing if there is none. -/
def specSafesplitOnce (s : Str) (sep : Char) : Except Unit (Str × Str) :=
  specSafesplitOnceGo sep s 0 []

/-- Modelled from the spec: the external `deprettify` (§6) reverses a
pretty-printing transform and may fail with a FormatError.  `prettify`
is modelled as replacing unprotected separators by line breaks, so this
model joins the newline-terminated lines with commas and reports a
FormatError on a layout it cannot reverse (an empty line or a
continuation line starting with a space). -/
def specDeprettify (s : Str) : Except Unit Str :=
  let ls := splitTermNl s
  if ls.any (fun l => l.isEmpty || l.head? == some ' ') then .error ()
  else .ok (joinSep ',' ls)

/-- Modelled from the spec: the collaborator bundle (§6) used to
instantiate the parser on concrete inputs. -/
def specCollab : Collab :=
  ⟨specDeprettify, specSafesplit, specSafesplitOnce, specUnprotect⟩

/-- Modelled from the spec: a collaborator bundle whose `deprettify`
always reports a FormatError, exhibiting the failure case of §6/§7. -/
def failDeprettifyCollab : Collab :=
  ⟨fun _ => .error (), specSafesplit, specSafesplitOnce, specUnprotect⟩

/-- Re-prepend an indentation to every non-first non-empty line (the
round-trip direction of §8 of the spec). -/
def reindent (w : Str) : List Str → List Str
  | [] => []
  | first :: rest => first :: rest.map (fun l => if l.isEmpty then l else w ++ l)

/-! ### Helper lemmas -/

theorem take_of_sub_dropWhile {α : Type} (p : α → Bool) (l : List α) :
    l.take (l.length - (l.dropWhile p).length) = l.takeWhile p := by
  obtain ⟨a, b, ha, hb, hab⟩ :
      ∃ a b, a = l.takeWhile p ∧ b = l.dropWhile p ∧ a ++ b = l :=
    ⟨_, _, rfl, rfl, List.takeWhile_append_dropWhile p l⟩
  rw [← ha, ← hb, ← hab, List.length_append, Nat.add_sub_cancel]
  exact List.take_left a b

theorem splitNl_ne_nil (s : Str) : splitNl s ≠ [] := by
  cases s with
  | nil => simp [splitNl]
  | cons c rest =>
    rw [splitNl]
    split
    · simp
    · split <;> simp

theorem splitNl_append_cons (l s : Str) (h : '\n' ∉ l) :
    splitNl (l ++ '\n' :: s) = l :: splitNl s := by
  induction l with
  | nil => simp [splitNl]
  | cons c t ih =>
    have hc : c ≠ '\n' := by
      intro he
      exact h (by rw [he]; exact List.mem_cons_self _ _)
    have ht : '\n' ∉ t := fun hm => h (List.mem_cons_of_mem _ hm)
    rw [List.cons_append, splitNl, if_neg hc, ih ht]

theorem splitNl_single (l : Str) (h : '\n' ∉ l) : splitNl l = [l] := by
  induction l with
  | nil => rfl
  | cons c t ih =>
    have hc : c ≠ '\n' := fun he => h (he ▸ List.mem_cons_self _ _)
    have ht : '\n' ∉ t := fun hm => h (List.mem_cons_of_mem _ hm)
    rw [splitNl, if_neg hc, ih ht]

theorem splitNl_joinSep (L : List Str) (hne : L ≠ [])
    (h : ∀ l ∈ L, '\n' ∉ l) : splitNl (joinSep '\n' L) = L := by
  induction L with
  | nil => exact absurd rfl hne
  | cons l ls ih =>
    cases ls with
    | nil =>
      rw [joinSep]
      exact splitNl_single l (h l (List.mem_cons_self _ _))
    | cons l2 ls2 =>
      rw [joinSep, splitNl_append_cons _ _ (h l (List.mem_cons_self _ _)),
        ih (by simp) (fun x hx => h x (List.mem_cons_of_mem _ hx))]

theorem dedentLines_nil_indent (ls : List Str) : dedentLines [] ls = some ls := by
  induction ls with
  | nil => rfl
  | cons l t ih =>
    rw [dedentLines]
    by_cases hl : l = []
    · subst hl
      simp [ih]
    · rw [if_neg (by simp [hl]), if_pos (by simp)]
      simp [ih]

theorem rustTrimEnd_append_of_ne_nil (y s : Str) (h : rustTrimEnd s ≠ []) :
    rustTrimEnd (y ++ s) = y ++ rustTrimEnd s := by
  unfold rustTrimEnd at *
  rw [List.reverse_append, List.dropWhile_append]
  rw [if_neg (by
    intro he
    rw [List.isEmpty_iff] at he
    rw [he] at h
    exact h rfl)]
  rw [List.reverse_append, List.reverse_reverse]

theorem rustTrimEnd_append_ws_nil (y s : Str) (hs : rustTrimEnd s = [])
    (hy : ∀ c ∈ y, isRustWs c) : rustTrimEnd (y ++ s) = [] := by
  unfold rustTrimEnd at *
  have h1 : s.reverse.dropWhile isRustWs = [] := by
    have := congrArg List.reverse hs
    rwa [List.reverse_reverse, List.reverse_nil] at this
  rw [List.reverse_append, List.dropWhile_append, h1]
  have h2 : y.reverse.dropWhile isRustWs = [] :=
    List.dropWhile_eq_nil_iff.mpr (fun c hc => hy c (List.mem_reverse.mp hc))
  simp [h2]

theorem rustTrimEnd_eq_nil_of_ws (y : Str) (hy : ∀ c ∈ y, isRustWs c) :
    rustTrimEnd y = [] := by
  have := rustTrimEnd_append_ws_nil y [] rfl hy
  rwa [List.append_nil] at this

theorem rustTrimStart_eq_self_of_head (c : Char) (t : Str) (h : ¬ isRustWs c) :
    rustTrimStart (c :: t) = c :: t := by
  unfold rustTrimStart
  rw [List.dropWhile_cons, if_neg h]

theorem rustTrimEnd_getLast_not_ws (s : Str) (c : Char)
    (h : (rustTrimEnd s).getLast? = some c) : ¬ isRustWs c := by
  unfold rustTrimEnd at h
  rw [List.getLast?_reverse] at h
  intro hws
  cases hd : s.reverse.dropWhile isRustWs with
  | nil => rw [hd] at h; exact Option.noConfusion h
  | cons a t =>
    rw [hd] at h
    have ha : a = c := by simpa using h
    have h2 := List.head?_dropWhile_not isRustWs s.reverse
    rw [hd] at h2
    simp only [List.head?_cons] at h2
    rw [ha] at h2
    simp only [hws] at h2
    exact Bool.noConfusion h2

theorem joinLinesList_append (p q : List Str) :
    joinLinesList (p ++ q) = joinLinesList p ++ joinLinesList q := by
  induction p with
  | nil => rfl
  | cons l t ih =>
    rw [List.cons_append, joinLinesList, joinLinesList, ih]
    simp

theorem joinLinesList_eq_joinSep (p : List Str) (h : p ≠ []) :
    joinLinesList p = joinSep '\n' p ++ ['\n'] := by
  induction p with
  | nil => exact absurd rfl h
  | cons l t ih =>
    cases t with
    | nil => rfl
    | cons l2 t2 =>
      rw [joinLinesList, ih (by simp), joinSep]
      simp

theorem drop_eq_cons_get? (lines : List Str) (i : Nat) (l : Str) (t : List Str)
    (h : lines.drop i = l :: t) : lines[i]? = some l := by
  have h0 : (lines.drop i)[0]? = some l := by rw [h]; simp
  rwa [List.getElem?_drop] at h0

theorem drop_eq_cons_succ (lines : List Str) (i : Nat) (l : Str) (t : List Str)
    (h : lines.drop i = l :: t) : lines.drop (i + 1) = t := by
  have h1 : (lines.drop i).drop 1 = t := by rw [h]; rfl
  rwa [List.drop_drop] at h1

theorem get?_eq_none_of_drop_nil (lines : List Str) (i : Nat)
    (h : lines.drop i = []) : lines[i]? = none := by
  have h0 : (lines.drop i)[0]? = none := by rw [h]; simp
  rwa [List.getElem?_drop] at h0

theorem nextAt_empty_line_aux (lines : List Str) (i : Nat)
    (hline : lines[i]? = some []) :
    ∀ stack : List Nat, (∃ u, peekUnemptyAt lines i stack = some u) →
      nextAt lines i stack = (some [], i + 1) := by
  intro stack
  induction stack with
  | nil =>
    intro _
    simp [nextAt, hline]
  | cons n st ih =>
    rintro ⟨u, hu⟩
    have hu2 := hu
    rw [peekUnemptyAt] at hu2
    rw [Option.bind_eq_some] at hu2
    obtain ⟨u1, hu1, _⟩ := hu2
    have hnext := ih ⟨u1, hu1⟩
    simp [nextAt, hu, hnext]

theorem argLoop_length_invariant (lines : List Str) (stack : List Nat) :
    ∀ fuel i defaults argdocs out,
      argLoop lines stack fuel i defaults argdocs = some out →
      defaults.length ≤ argdocs.length →
      out.2.1.length ≤ out.2.2.length := by
  intro fuel
  induction fuel with
  | zero =>
    intro i d a out h
    rw [argLoop] at h
    exact absurd h (by simp)
  | succ f ih =>
    intro i d a out h hle
    rw [argLoop] at h
    cases hn : nextAt lines i stack with
    | mk o i2 =>
      rw [hn] at h
      cases o with
      | none =>
        rw [Option.some_inj] at h
        rw [← h]
        exact hle
      | some line =>
        dsimp only at h
        cases hj : joinLinesAt lines (dedentNew lines i2 stack 2).2
            (lines.length + 1) (dedentNew lines i2 stack 2).1 with
        | none => rw [hj] at h; exact absurd h (by simp)
        | some r2 =>
          rw [hj] at h
          dsimp only at h
          refine ih _ _ _ _ h ?_
          cases hps : (parseArgSpec (rustTrim line)).1 with
          | none =>
            rw [hps] at h
            simp only [List.length_append, List.length_singleton]
            omega
          | some kv =>
            rw [hps] at h
            simp only [List.length_append, List.length_singleton]
            omega

theorem parseLoop_length_invariant (c : Collab) (lines : List Str) :
    ∀ fuel i text defaults argdocs presets r,
      parseLoop c lines fuel i text defaults argdocs presets = POut.ok r →
      defaults.length ≤ argdocs.length →
      r.defaults.length ≤ r.argdocs.length := by
  intro fuel
  induction fuel with
  | zero =>
    intro i text d a p r h
    rw [parseLoop] at h
    exact absurd h (by simp)
  | succ f ih =>
    intro i text d a p r h hle
    rw [parseLoop] at h
    cases hpk : peekUnemptyIdx lines i with
    | none =>
      rw [hpk] at h
      rw [POut.ok.injEq] at h
      rw [← h]
      exact hle
    | some line =>
      rw [hpk] at h
      dsimp only at h
      by_cases hm : line = argMarker
      · rw [if_pos hm] at h
        cases hal : argLoop lines
            (dedentNew lines
              (match lines[gobbleIdx lines i]? with
               | some _ => gobbleIdx lines i + 1
               | none => gobbleIdx lines i) [] 3).2
            (lines.length + 1)
            (dedentNew lines
              (match lines[gobbleIdx lines i]? with
               | some _ => gobbleIdx lines i + 1
               | none => gobbleIdx lines i) [] 3).1 d a with
        | none => rw [hal] at h; exact absurd h (by simp)
        | some out =>
          rw [hal] at h
          obtain ⟨i3, d2, a2⟩ := out
          dsimp only at h
          exact ih _ _ _ _ _ _ h
            (argLoop_length_invariant _ _ _ _ _ _ _ hal hle)
      · rw [if_neg hm] at h
        by_cases hm2 : line = presetMarker
        · rw [if_pos hm2] at h
          cases hpl : presetLoop c lines
              (dedentNew lines
                (match lines[gobbleIdx lines i]? with
                 | some _ => gobbleIdx lines i + 1
                 | none => gobbleIdx lines i) [] 3).2
              (lines.length + 1)
              (dedentNew lines
                (match lines[gobbleIdx lines i]? with
                 | some _ => gobbleIdx lines i + 1
                 | none => gobbleIdx lines i) [] 3).1 p with
          | done i3 p2 =>
            rw [hpl] at h
            exact ih _ _ _ _ _ _ h hle
          | failed e => rw [hpl] at h; exact absurd h (by simp)
          | panicked => rw [hpl] at h; exact absurd h (by simp)
          | fuelOut => rw [hpl] at h; exact absurd h (by simp)
        · rw [if_neg hm2] at h
          cases hcp : copyPara lines (lines.length + 1) (gobbleIdx lines i)
              (if text.isEmpty then text else text ++ ['\n']) with
          | none => rw [hcp] at h; exact absurd h (by simp)
          | some r2 =>
            rw [hcp] at h
            dsimp only at h
            exact ih _ _ _ _ _ _ h hle

theorem splitNl_drop_tail_rel (s : Str) :
    (splitNl s).drop 1 = (splitTermNl s).drop 1 ∨
    (splitNl s).drop 1 = (splitTermNl s).drop 1 ++ [[]] := by
  unfold splitTermNl
  cases hg : (splitNl s).getLast? with
  | none => left; rfl
  | some a =>
    cases a with
    | cons c t => left; rfl
    | nil =>
      have ha : ([] : Str) ∈ (splitNl s).getLast? := by rw [hg]; rfl
      have he : (splitNl s).dropLast ++ [[]] = splitNl s :=
        List.dropLast_append_getLast? [] ha
      obtain ⟨T, hT⟩ : ∃ T, (splitNl s).dropLast = T := ⟨_, rfl⟩
      rw [hT] at he
      rw [hT, ← he]
      cases T with
      | nil => left; rfl
      | cons x xs => right; rfl

theorem dedentLines_reindent (w : Str) (hw : ∀ c ∈ w, c = ' ') :
    ∀ raws : List Str, (∀ u ∈ raws, u = [] ∨ w.isPrefixOf u) →
      ∃ ds, dedentLines w (raws.map rustTrimEnd) = some ds ∧
        ds.map (fun t => if t.isEmpty then t else w ++ t) = raws.map rustTrimEnd := by
  intro raws
  induction raws with
  | nil => intro _; exact ⟨[], rfl, rfl⟩
  | cons u rest ih =>
    intro hcond
    obtain ⟨ds, h1, h2⟩ := ih (fun x hx => hcond x (List.mem_cons_of_mem _ hx))
    rw [List.map_cons]
    by_cases ht : rustTrimEnd u = []
    · refine ⟨[] :: ds, ?_, ?_⟩
      · rw [dedentLines, if_pos (by rw [ht]; rfl), h1]
        rfl
      · rw [List.map_cons, h2, ht]
        rfl
    · have hu : u ≠ [] := fun he => ht (by rw [he]; rfl)
      have hpre : w.isPrefixOf u := (hcond u (List.mem_cons_self _ _)).resolve_left hu
      have hpre2 : w <+: u := List.isPrefixOf_iff_prefix.mp hpre
      obtain ⟨s, hs⟩ := hpre2
      have hwws : ∀ c ∈ w, isRustWs c := fun c hc => by rw [hw c hc]; rfl
      have hts : rustTrimEnd s ≠ [] := by
        intro hnil
        exact ht (by rw [← hs]; exact rustTrimEnd_append_ws_nil w s hnil hwws)
      have htu : rustTrimEnd u = w ++ rustTrimEnd s := by
        rw [← hs]
        exact rustTrimEnd_append_of_ne_nil w s hts
      have htne : ¬((rustTrimEnd u).isEmpty = true) := by
        intro he
        rw [List.isEmpty_eq_true] at he
        exact ht he
      refine ⟨rustTrimEnd s :: ds, ?_, ?_⟩
      · rw [dedentLines, if_neg htne,
          if_pos (List.isPrefixOf_iff_prefix.mpr (by rw [htu]; exact List.prefix_append w _)),
          h1]
        rw [htu, List.drop_left]
        rfl
      · rw [List.map_cons, h2]
        rw [if_neg (by simpa using hts), htu]

theorem splitTermNl_eq_splitNl (s : Str) (h : ¬((splitNl s).getLast? = some [])) :
    splitTermNl s = splitNl s := by
  unfold splitTermNl
  cases hg : (splitNl s).getLast? with
  | none => rfl
  | some a =>
    cases a with
    | nil => exact absurd hg h
    | cons c t => rfl

theorem gobbleIdx_of_ne (lines : List Str) (i : Nat) (l : Str) (t : List Str)
    (h : lines.drop i = l :: t) (hl : l ≠ []) : gobbleIdx lines i = i := by
  unfold gobbleIdx
  rw [h, List.takeWhile_cons, if_neg (by simpa using hl)]
  rfl

theorem gobbleIdx_of_nil_ne (lines : List Str) (i : Nat) (l : Str) (t : List Str)
    (h : lines.drop i = [] :: l :: t) (hl : l ≠ []) : gobbleIdx lines i = i + 1 := by
  unfold gobbleIdx
  rw [h, List.takeWhile_cons]
  simp only [List.isEmpty_nil, if_true]
  rw [List.takeWhile_cons, if_neg (by simpa using hl)]
  rfl

theorem peekUnemptyIdx_of_ne (lines : List Str) (i : Nat) (l : Str) (t : List Str)
    (h : lines.drop i = l :: t) (hl : l ≠ []) : peekUnemptyIdx lines i = some l := by
  unfold peekUnemptyIdx
  rw [h, List.find?_cons_of_pos _ (by simpa using hl)]

theorem peekUnemptyIdx_of_nil_ne (lines : List Str) (i : Nat) (l : Str) (t : List Str)
    (h : lines.drop i = [] :: l :: t) (hl : l ≠ []) :
    peekUnemptyIdx lines i = some l := by
  unfold peekUnemptyIdx
  rw [h, List.find?_cons_of_neg _ (by simp), List.find?_cons_of_pos _ (by simpa using hl)]

theorem peekUnemptyIdx_of_end (lines : List Str) (i : Nat)
    (h : lines.drop i = []) : peekUnemptyIdx lines i = none := by
  unfold peekUnemptyIdx
  rw [h]
  rfl

theorem joinLinesList_ne_nil (l : Str) (t : List Str) :
    joinLinesList (l :: t) ≠ [] := by
  rw [joinLinesList]
  simp

theorem copyPara_block (lines : List Str) :
    ∀ (p : List Str) (rest : List Str) (i : Nat) (text : Str) (fuel : Nat),
      (∀ l ∈ p, l ≠ []) →
      lines.drop i = p ++ rest →
      (rest = [] ∨ ∃ t2, rest = [] :: t2) →
      p.length < fuel →
      copyPara lines fuel i text = some (text ++ joinLinesList p, i + p.length) := by
  intro p
  induction p with
  | nil =>
    intro rest i text fuel h1 h2 h3 h4
    cases fuel with
    | zero => omega
    | succ f =>
      rw [copyPara]
      rcases h3 with hr | ⟨t2, hr⟩
      · subst hr
        have hg : lines[i]? = none :=
          get?_eq_none_of_drop_nil lines i (by simpa using h2)
        simp [nextIfUnemptyIdx, hg, joinLinesList]
      · subst hr
        have hg : lines[i]? = some [] :=
          drop_eq_cons_get? lines i [] t2 (by simpa using h2)
        simp [nextIfUnemptyIdx, hg, joinLinesList]
  | cons l p' ih =>
    intro rest i text fuel h1 h2 h3 h4
    cases fuel with
    | zero => exact absurd h4 (by omega)
    | succ f =>
      have hg : lines[i]? = some l :=
        drop_eq_cons_get? lines i l _ (by simpa using h2)
      have hl : l ≠ [] := h1 l (List.mem_cons_self _ _)
      have hdrop : lines.drop (i + 1) = p' ++ rest :=
        drop_eq_cons_succ lines i l _ (by simpa using h2)
      rw [copyPara]
      rw [show nextIfUnemptyIdx lines i = some (l, i + 1) from by
        simp [nextIfUnemptyIdx, hg, hl]]
      dsimp only
      rw [ih rest (i + 1) (text ++ l ++ ['\n']) f
        (fun x hx => h1 x (List.mem_cons_of_mem _ hx)) hdrop h3 (by
          have h5 : (l :: p').length = p'.length + 1 := List.length_cons l p'
          omega)]
      simp only [Option.some.injEq, Prod.mk.injEq, joinLinesList]
      constructor
      · simp [List.append_assoc]
      · have h5 : (l :: p').length = p'.length + 1 := List.length_cons l p'
        omega

theorem parseLoop_exit (c : Collab) (lines : List Str) (f : Nat) (i : Nat)
    (text : Str) (d a : List (Str × Str)) (p : List (Str × List (Str × Str)))
    (h : peekUnemptyIdx lines i = none) :
    parseLoop c lines (f + 1) i text d a p =
      POut.ok ⟨joinLinesList lines, rustTrim text, d, a, p⟩ := by
  rw [parseLoop, h]

theorem parseLoop_para_step (c : Collab) (lines : List Str) (f : Nat) (i : Nat)
    (text : Str) (d a : List (Str × Str)) (p : List (Str × List (Str × Str)))
    (l : Str) (hpk : peekUnemptyIdx lines i = some l)
    (hm1 : l ≠ argMarker) (hm2 : l ≠ presetMarker) :
    parseLoop c lines (f + 1) i text d a p =
      match copyPara lines (lines.length + 1) (gobbleIdx lines i)
          (if text.isEmpty then text else text ++ ['\n']) with
      | none => POut.fuelOut
      | some r2 => parseLoop c lines f r2.2 r2.1 d a p := by
  rw [parseLoop, hpk]
  dsimp only
  rw [if_neg hm1, if_neg hm2]
  cases hc : copyPara lines (lines.length + 1) (gobbleIdx lines i)
      (if text.isEmpty then text else text ++ ['\n']) with
  | none => rfl
  | some r2 =>
    obtain ⟨t2, i3⟩ := r2
    rfl

theorem rustTrimEnd_snoc_ws (y : Str) (ch : Char) (h : isRustWs ch) :
    rustTrimEnd (y ++ [ch]) = rustTrimEnd y := by
  unfold rustTrimEnd
  rw [List.reverse_append]
  simp only [List.reverse_cons, List.reverse_nil, List.nil_append, List.singleton_append]
  rw [List.dropWhile_cons, if_pos h]

theorem head_not_ws_of_trimStart_fix (l : Str) (hne : l ≠ [])
    (hfix : rustTrimStart l = l) :
    ∃ c t, l = c :: t ∧ ¬ isRustWs c := by
  cases l with
  | nil => exact absurd rfl hne
  | cons c t =>
    refine ⟨c, t, rfl, ?_⟩
    intro hws
    unfold rustTrimStart at hfix
    rw [List.dropWhile_cons, if_pos hws] at hfix
    have hlen := congrArg List.length hfix
    have hle : (t.dropWhile isRustWs).length ≤ t.length :=
      (List.dropWhile_sublist isRustWs).length_le
    simp only [List.length_cons] at hlen
    omega

theorem joinSep_trimEnd_fix (p : List Str) (hp : p ≠ [])
    (h : ∀ l ∈ p, rustTrimEnd l = l ∧ l ≠ []) :
    rustTrimEnd (joinSep '\n' p) = joinSep '\n' p ∧ joinSep '\n' p ≠ [] := by
  induction p with
  | nil => exact absurd rfl hp
  | cons l t ih =>
    cases t with
    | nil =>
      rw [joinSep]
      exact ⟨(h l (List.mem_cons_self _ _)).1, (h l (List.mem_cons_self _ _)).2⟩
    | cons l2 t2 =>
      obtain ⟨ih1, ih2⟩ := ih (by simp) (fun x hx => h x (List.mem_cons_of_mem _ hx))
      rw [joinSep]
      have hsh : l ++ '\n' :: joinSep '\n' (l2 :: t2)
          = (l ++ ['\n']) ++ joinSep '\n' (l2 :: t2) := by
        simp
      constructor
      · rw [hsh]
        rw [rustTrimEnd_append_of_ne_nil _ _ (by rw [ih1]; exact ih2), ih1]
      · simp

/-! ### Claims -/

/-- C6: constructing an indent scope first gobbles empty lines on the
parent; if the parent then has a next non-empty line with leading space
count `d`, the working indent is `d` when `d ≥ minIndent` and `d + 1`
otherwise; with no next non-empty line the working indent is zero. -/
theorem dedent_scope_working_indent (lines : List Str) (i : Nat)
    (stack : List Nat) (m : Nat) :
    (dedentNew lines i stack m).1 = gobbleIdx lines i ∧
    (∀ l, peekUnemptyAt lines (gobbleIdx lines i) stack = some l →
      dedentNew lines i stack m =
        (gobbleIdx lines i,
         (if m ≤ leadingSpaces l then leadingSpaces l else leadingSpaces l + 1)
           :: stack)) ∧
    (peekUnemptyAt lines (gobbleIdx lines i) stack = none →
      dedentNew lines i stack m = (gobbleIdx lines i, 0 :: stack)) := by
  refine ⟨rfl, ?_, ?_⟩
  · intro l hl
    simp [dedentNew, hl]
  · intro hl
    simp [dedentNew, hl]

/-- C6 witness: on the single line `"  a"` with minimum indent 3, the
detected indent 2 falls short, so the working indent is 3. -/
theorem dedent_scope_working_indent_witness :
    dedentNew ["  a".data] 0 [] 3 = (0, [3]) := by
  have h := (dedent_scope_working_indent ["  a".data] 0 [] 3).2.1
    "  a".data (by decide)
  exact h.trans (by decide)

/-- C10: a trimmed argument spec line that does not both contain `" ["`
and end with `']'` yields no defaults entry, and the whole line is the
argument name. -/
theorem argspec_no_bracket_verbatim (arg : Str)
    (h : ¬((findSub " [".data arg).isSome ∧ arg.getLast? = some ']')) :
    parseArgSpec arg = (none, arg) := by
  unfold parseArgSpec
  split
  · rename_i index hf hg
    exact absurd ⟨by rw [hf]; rfl, by simpa using hg⟩ h
  · rfl

/-- C10 witness: `"foo [bar"` (no trailing bracket) and `"foo bar]"`
(no `" ["`) are taken verbatim with no defaults entry. -/
theorem argspec_no_bracket_verbatim_witness :
    (¬((findSub " [".data "foo [bar".data).isSome ∧
        "foo [bar".data.getLast? = some ']')) ∧
    parseArgSpec "foo [bar".data = (none, "foo [bar".data) ∧
    parseArgSpec "foo bar]".data = (none, "foo bar]".data) :=
  ⟨by decide, argspec_no_bracket_verbatim _ (by decide),
    argspec_no_bracket_verbatim _ (by decide)⟩

/-- C2 (amended): when the parent's current line is empty and the
scope's `peek_unempty` succeeds (the parent's next non-empty line
dedents at every level), `next` exposes the empty line and advances
the parent past it; when the scope's `peek_unempty` fails, `next`
returns none without advancing the parent. -/
theorem scope_next_on_empty_parent_line (lines : List Str) (i n : Nat)
    (stack : List Nat) (hline : lines[i]? = some []) :
    (∀ u, peekUnemptyAt lines i (n :: stack) = some u →
      nextAt lines i (n :: stack) = (some [], i + 1)) ∧
    (peekUnemptyAt lines i (n :: stack) = none →
      nextAt lines i (n :: stack) = (none, i)) := by
  constructor
  · intro u hu
    exact nextAt_empty_line_aux lines i hline (n :: stack) ⟨u, hu⟩
  · intro hu
    simp [nextAt, hu]

/-- C2 witness: over the lines `["", "  a"]` with an indent-2 scope,
the empty current line is exposed and the parent advances. -/
theorem scope_next_on_empty_parent_line_witness :
    nextAt [[], "  a".data] 0 [2] = (some [], 1) :=
  (scope_next_on_empty_parent_line [[], "  a".data] 0 2 [] (by decide)).1
    "a".data (by decide)
/-- C1: the deprettify failure is not surfaced: with a collaborator
whose deprettify reports a FormatError, `DocString::new` panics via
`unwrap` (src/lib.rs:85) instead of returning a structured error. -/
theorem docstring_deprettify_failure_panics :
    docStringNew failDeprettifyCollab
      "T.\n\n  .. presets::\n\n     fast\n       x=1".data = POut.panicked := by
  decide

/-- C8: on a docstring whose arguments block holds the spec line
`foo [bar]` followed by a more deeply indented `description here`,
the record's defaults contain `("foo", "bar")` and its argdocs contain
`("foo", "description here")`. -/
theorem argblock_default_and_doc_example :
    docStringNew specCollab
      "First line.\n\n  .. arguments::\n\n     foo [bar]\n       description here".data
      = POut.ok
        ⟨"First line.\n\n.. arguments::\n\n   foo [bar]\n     description here\n".data,
         "First line.".data,
         [("foo".data, "bar".data)],
         [("foo".data, "description here".data)],
         []⟩ := by
  decide

/-- C9: a preset item without an unprotected `=` makes the whole parse
fail with the single structured error naming the preset and the
unprotected item; no record is produced. -/
theorem preset_missing_value_error_example :
    docStringNew specCollab
      "T.\n\n  .. presets::\n\n     fast\n       x=1,y".data
      = POut.err "preset fast has no value for argument y".data := by
  decide
/-- C2 counterexample: over the lines `["  a", "", "b"]`, an indent-2
scope (as constructed by `dedent` with minimum indent 1) yields `"a"`,
after which the parent's current line is empty, yet `next` returns
none and leaves the parent in place, because the following non-empty
line `"b"` falls outside the block. -/
theorem dedent_next_empty_line_not_exposed :
    dedentNew ["  a".data, [], "b".data] 0 [] 1 = (0, [2]) ∧
    nextAt ["  a".data, [], "b".data] 0 [2] = (some "a".data, 1) ∧
    peekIdx ["  a".data, [], "b".data] 1 = some [] ∧
    nextAt ["  a".data, [], "b".data] 1 [2] = (none, 1) := by
  decide

/-- C3 counterexample: for the input `"a\n\tb\n\tc"`, whose non-first
lines are indented with a tab, the normalizer strips the tab prefix as
shared indentation. -/
theorem tab_indent_is_stripped :
    sadIndent "a\n\tb\n\tc".data = "\t".data ∧
    split_and_dedent "a\n\tb\n\tc".data = ["a".data, "b".data, "c".data] := by
  decide

/-- C4 counterexample: the two one-line paragraphs of `"A\n\nB"` are
separated by a blank line in the body text, i.e. the body text is
`"A\n\nB"` and not `"A\nB"`. -/
theorem two_paragraphs_blank_line_kept :
    docStringNew specCollab "A\n\nB".data
      = POut.ok ⟨"A\n\nB\n".data, "A\n\nB".data, [], [], []⟩ ∧
    "A\n\nB".data ≠ "A\nB".data := by
  decide

/-- C7 counterexample: for `"a\n    b\n  c"`, whose non-first lines all
start with the common space indentation `"  "`, normalization followed
by re-prepending `"  "` does not reproduce the right-trimmed original
lines (the detected candidate is the four-space prefix of `"    b"`, so
normalization falls back to trimming only). -/
theorem roundtrip_fails_on_common_prefix_only :
    (∀ l ∈ (splitNl "a\n    b\n  c".data).drop 1,
        l = [] ∨ "  ".data.isPrefixOf l) ∧
    reindent "  ".data (split_and_dedent "a\n    b\n  c".data)
      ≠ (splitNl "a\n    b\n  c".data).map rustTrimEnd := by
  decide

/-- C3 (amended): the candidate shared indent is the leading
*whitespace* prefix (any whitespace characters, tabs included, via
`trim_start`) of the first non-empty line after the first line,
matched verbatim as a string prefix by the remaining lines. -/
theorem sad_indent_is_whitespace_prefix (doc : Str) (l : Str)
    (h : ((splitTermNl doc).drop 1).find? (fun x => !x.isEmpty) = some l) :
    sadIndent doc = l.takeWhile isRustWs := by
  unfold sadIndent
  rw [h]
  exact take_of_sub_dropWhile isRustWs l

/-- C3 witness: for `"a\n\tb"` the candidate indent is the tab prefix
of `"\tb"`. -/
theorem sad_indent_is_whitespace_prefix_witness :
    sadIndent "a\n\tb".data = "\tb".data.takeWhile isRustWs :=
  sad_indent_is_whitespace_prefix "a\n\tb".data "\tb".data (by decide)

/-- C5 counterexample: the claimed violation is impossible — no input
and no collaborator behavior produce a successfully parsed record with
fewer argdocs entries than defaults entries. -/
theorem argdocs_never_shorter_than_defaults :
    ¬ ∃ (c : Collab) (doc : Str) (r : Record),
        docStringNew c doc = POut.ok r ∧
        r.argdocs.length < r.defaults.length := by
  rintro ⟨c, doc, r, hok, hlt⟩
  have h2 : parseLoop c (split_and_dedent doc)
      ((split_and_dedent doc).length + 1)
      (gobbleIdx (split_and_dedent doc) 0) [] [] [] [] = POut.ok r := hok
  have h3 := parseLoop_length_invariant c (split_and_dedent doc) _ _ _ _ _ _ _
    h2 (Nat.le_refl 0)
  omega

/-- C5 (amended): the invariant does hold — every successfully parsed
record has at least as many argdocs entries as defaults entries, since
each argument spec line contributes exactly one argdocs entry and at
most one defaults entry. -/
theorem record_defaults_le_argdocs (c : Collab) (doc : Str) (r : Record)
    (h : docStringNew c doc = POut.ok r) :
    r.defaults.length ≤ r.argdocs.length := by
  have h2 : parseLoop c (split_and_dedent doc)
      ((split_and_dedent doc).length + 1)
      (gobbleIdx (split_and_dedent doc) 0) [] [] [] [] = POut.ok r := h
  exact parseLoop_length_invariant c (split_and_dedent doc) _ _ _ _ _ _ _
    h2 (Nat.le_refl 0)

/-- C5 witness: a concrete successful parse obeying the invariant. -/
theorem record_defaults_le_argdocs_witness :
    docStringNew specCollab "x".data
      = POut.ok ⟨"x\n".data, "x".data, [], [], []⟩ ∧
    (Record.mk "x\n".data "x".data [] [] []).defaults.length ≤
      (Record.mk "x\n".data "x".data [] [] []).argdocs.length :=
  ⟨by decide, record_defaults_le_argdocs specCollab "x".data _ (by decide)⟩

/-- C7 (amended): for inputs whose non-first lines are empty or start
with a common space indentation `w`, and whose first non-empty line
after the first has leading whitespace exactly `w`, normalizing and
then re-prepending `w` to every non-first non-empty line reproduces
the right-trimmed original lines. -/
theorem dedent_reindent_roundtrip (doc : Str) (w : Str)
    (hw : ∀ c ∈ w, c = ' ')
    (hall : ∀ l ∈ (splitNl doc).drop 1, l = [] ∨ w.isPrefixOf l)
    (hfirst : ∀ l, ((splitTermNl doc).drop 1).find? (fun x => !x.isEmpty) = some l →
      l.takeWhile isRustWs = w) :
    reindent w (split_and_dedent doc) = (splitNl doc).map rustTrimEnd := by
  obtain ⟨l0, raws, hsp⟩ : ∃ l0 raws, splitNl doc = l0 :: raws := by
    cases h : splitNl doc with
    | nil => exact absurd h (splitNl_ne_nil doc)
    | cons a b => exact ⟨a, b, rfl⟩
  have hraws : (splitNl doc).drop 1 = raws := by rw [hsp]; rfl
  cases hf : ((splitTermNl doc).drop 1).find? (fun x => !x.isEmpty) with
  | none =>
    have hsad : sadIndent doc = [] := by
      unfold sadIndent
      rw [hf]
    have hallnil : ∀ u ∈ raws, u = [] := by
      intro u hu
      have hmem : u ∈ (splitNl doc).drop 1 := by rw [hraws]; exact hu
      have hnone := List.find?_eq_none.mp hf
      rcases splitNl_drop_tail_rel doc with he | he
      · rw [he] at hmem
        have h3 := hnone u hmem
        simpa using h3
      · rw [he] at hmem
        rcases List.mem_append.mp hmem with h4 | h4
        · have h3 := hnone u h4
          simpa using h3
        · simpa using h4
    have hmap : raws.map rustTrimEnd = raws := by
      have hcg : ∀ u ∈ raws, rustTrimEnd u = id u := by
        intro u hu
        rw [hallnil u hu]
        rfl
      rw [List.map_congr_left hcg, List.map_id]
    unfold split_and_dedent
    rw [hsp]
    dsimp only
    rw [hsad, List.map_cons, hmap]
    dsimp only
    rw [dedentLines_nil_indent]
    rw [reindent]
    congr 1
    have hcg2 : ∀ u ∈ raws, (if u.isEmpty then u else w ++ u) = id u := by
      intro u hu
      rw [hallnil u hu]
      rfl
    rw [List.map_congr_left hcg2, List.map_id]
  | some l =>
    have hpred := List.find?_some hf
    have hW : l.takeWhile isRustWs = w := hfirst l hf
    have hsad : sadIndent doc = w := by
      unfold sadIndent
      rw [hf]
      dsimp only
      unfold rustTrimStart
      rw [take_of_sub_dropWhile isRustWs l, hW]
    obtain ⟨ds, h1, h2⟩ := dedentLines_reindent w hw raws
      (fun u hu => hall u (by rw [hraws]; exact hu))
    unfold split_and_dedent
    rw [hsp]
    dsimp only
    rw [hsad, List.map_cons]
    dsimp only
    rw [h1]
    rw [reindent]
    exact congrArg (rustTrimEnd l0 :: ·) h2

/-- C7 witness: round trip on `"a\n  b\n  c"` with indentation `"  "`. -/
theorem dedent_reindent_roundtrip_witness :
    reindent "  ".data (split_and_dedent "a\n  b\n  c".data)
      = (splitNl "a\n  b\n  c".data).map rustTrimEnd :=
  dedent_reindent_roundtrip "a\n  b\n  c".data "  ".data (by decide) (by decide)
    (by
      intro l hl
      have hc : ((splitTermNl "a\n  b\n  c".data).drop 1).find?
          (fun x => !x.isEmpty) = some "  b".data := by decide
      rw [hc] at hl
      injection hl with hl2
      rw [← hl2]
      decide)

/-- C4 (amended): two paragraphs of clean non-empty lines separated by
one blank line produce a body text in which the paragraphs are
separated by a blank line (`"\n\n"`), with the surrounding whitespace
trimmed. -/
theorem two_paragraphs_body_text (c : Collab) (p1 p2 : List Str)
    (hp1 : p1 ≠ []) (hp2 : p2 ≠ [])
    (hcl : ∀ l ∈ p1 ++ p2, l ≠ [] ∧ '\n' ∉ l ∧ rustTrimEnd l = l ∧
      rustTrimStart l = l ∧ l ≠ argMarker ∧ l ≠ presetMarker) :
    docStringNew c (joinSep '\n' (p1 ++ [[]] ++ p2)) =
      POut.ok ⟨joinLinesList (p1 ++ [[]] ++ p2),
        joinSep '\n' p1 ++ '\n' :: '\n' :: joinSep '\n' p2, [], [], []⟩ := by
  obtain ⟨a, as, hp1e⟩ : ∃ a as, p1 = a :: as := by
    cases p1 with
    | nil => exact absurd rfl hp1
    | cons x xs => exact ⟨x, xs, rfl⟩
  obtain ⟨b, bs, hp2e⟩ : ∃ b bs, p2 = b :: bs := by
    cases p2 with
    | nil => exact absurd rfl hp2
    | cons x xs => exact ⟨x, xs, rfl⟩
  have hamem : a ∈ p1 ++ p2 := by rw [hp1e]; exact List.mem_append.mpr (Or.inl (List.mem_cons_self _ _))
  have hbmem : b ∈ p1 ++ p2 := by rw [hp2e]; exact List.mem_append.mpr (Or.inr (List.mem_cons_self _ _))
  have hane : a ≠ [] := (hcl a hamem).1
  have hbne : b ≠ [] := (hcl b hbmem).1
  have hLmem : ∀ l ∈ p1 ++ [[]] ++ p2, l = [] ∨ l ∈ p1 ++ p2 := by
    intro l hl
    rcases List.mem_append.mp hl with h | h
    · rcases List.mem_append.mp h with h2 | h2
      · right; exact List.mem_append.mpr (Or.inl h2)
      · left; simpa using h2
    · right; exact List.mem_append.mpr (Or.inr h)
  have hsplit1 : splitNl (joinSep '\n' (p1 ++ [[]] ++ p2)) = p1 ++ [[]] ++ p2 := by
    refine splitNl_joinSep _ (by simp) ?_
    intro l hl
    rcases hLmem l hl with he | hm
    · rw [he]; simp
    · exact (hcl l hm).2.1
  have hterm : splitTermNl (joinSep '\n' (p1 ++ [[]] ++ p2))
      = splitNl (joinSep '\n' (p1 ++ [[]] ++ p2)) := by
    refine splitTermNl_eq_splitNl _ ?_
    rw [hsplit1]
    intro he
    have h2 : p2.getLast? = some (p2.getLast hp2) := List.getLast?_eq_getLast p2 hp2
    rw [List.getLast?_append, List.getLast?_append, h2] at he
    have h3 : p2.getLast hp2 = [] := by
      have h4 : (some (p2.getLast hp2)).or (([[]] : List Str).getLast?.or p1.getLast?)
          = some [] := he
      simpa using h4
    exact (hcl _ (List.mem_append.mpr (Or.inr (List.getLast_mem hp2)))).1 h3
  have hfind : ∃ l0, ((splitTermNl (joinSep '\n' (p1 ++ [[]] ++ p2))).drop 1).find?
      (fun x => !x.isEmpty) = some l0 ∧ l0 ∈ p1 ++ p2 := by
    rcases as with _ | ⟨a2, as2⟩
    · refine ⟨b, ?_, hbmem⟩
      have hd : (p1 ++ [[]] ++ p2).drop 1 = [] :: b :: bs := by
        rw [hp1e, hp2e]
        rfl
      rw [hterm, hsplit1, hd]
      rw [List.find?_cons_of_neg _ (by simp)]
      rw [List.find?_cons_of_pos _ (by simpa using hbne)]
    · have ha2mem : a2 ∈ p1 ++ p2 := by
        rw [hp1e]
        exact List.mem_append.mpr (Or.inl (List.mem_cons_of_mem _ (List.mem_cons_self _ _)))
      refine ⟨a2, ?_, ha2mem⟩
      have hd : (p1 ++ [[]] ++ p2).drop 1 = a2 :: ((as2 ++ [[]]) ++ p2) := by
        rw [hp1e]
        simp
      rw [hterm, hsplit1, hd]
      rw [List.find?_cons_of_pos _ (by simpa using (hcl a2 ha2mem).1)]
  obtain ⟨l0, hf0, hl0mem⟩ := hfind
  have hsad : sadIndent (joinSep '\n' (p1 ++ [[]] ++ p2)) = [] := by
    unfold sadIndent
    rw [hf0]
    dsimp only
    rw [(hcl l0 hl0mem).2.2.2.1]
    simp
  have hmapTE : (p1 ++ [[]] ++ p2).map rustTrimEnd = p1 ++ [[]] ++ p2 := by
    have hcg : ∀ l ∈ p1 ++ [[]] ++ p2, rustTrimEnd l = id l := by
      intro l hl
      rcases hLmem l hl with he | hm
      · rw [he]; rfl
      · exact (hcl l hm).2.2.1
    rw [List.map_congr_left hcg, List.map_id]
  have hLc : p1 ++ [[]] ++ p2 = a :: ((as ++ [[]]) ++ p2) := by
    rw [hp1e]
    simp
  have hsd : split_and_dedent (joinSep '\n' (p1 ++ [[]] ++ p2)) = p1 ++ [[]] ++ p2 := by
    unfold split_and_dedent
    dsimp only
    rw [hsad, hsplit1, hmapTE, hLc]
    dsimp only
    rw [dedentLines_nil_indent]
  have hNl : (p1 ++ [[]] ++ p2).length = p1.length + 1 + p2.length := by
    simp only [List.length_append, List.length_cons, List.length_nil]
  have hdrop0 : (p1 ++ [[]] ++ p2).drop 0 = p1 ++ ([] :: p2) := by
    rw [List.drop_zero]
    simp
  have hdrop0c : (p1 ++ [[]] ++ p2).drop 0 = a :: (as ++ ([] :: p2)) := by
    rw [hdrop0, hp1e]
    simp
  have hpk0 : peekUnemptyIdx (p1 ++ [[]] ++ p2) 0 = some a :=
    peekUnemptyIdx_of_ne _ 0 a _ hdrop0c hane
  have hg0 : gobbleIdx (p1 ++ [[]] ++ p2) 0 = 0 :=
    gobbleIdx_of_ne _ 0 a _ hdrop0c hane
  have hdropP1 : (p1 ++ [[]] ++ p2).drop p1.length = [] :: p2 := by
    have h1 : p1 ++ [[]] ++ p2 = p1 ++ ([] :: p2) := by simp
    rw [h1]
    exact List.drop_left p1 ([] :: p2)
  have hdropP1c : (p1 ++ [[]] ++ p2).drop p1.length = [] :: b :: bs := by
    rw [hdropP1, hp2e]
  have hpk1 : peekUnemptyIdx (p1 ++ [[]] ++ p2) p1.length = some b :=
    peekUnemptyIdx_of_nil_ne _ _ b bs hdropP1c hbne
  have hg1 : gobbleIdx (p1 ++ [[]] ++ p2) p1.length = p1.length + 1 :=
    gobbleIdx_of_nil_ne _ _ b bs hdropP1c hbne
  have hdropP2 : (p1 ++ [[]] ++ p2).drop (p1.length + 1) = p2 :=
    drop_eq_cons_succ _ _ [] p2 hdropP1
  have hcp1 : copyPara (p1 ++ [[]] ++ p2) ((p1 ++ [[]] ++ p2).length + 1) 0 []
      = some ([] ++ joinLinesList p1, 0 + p1.length) := by
    refine copyPara_block _ p1 ([] :: p2) 0 []
      ((p1 ++ [[]] ++ p2).length + 1) ?_ hdrop0 (Or.inr ⟨p2, rfl⟩) (by rw [hNl]; omega)
    intro l hl
    exact (hcl l (List.mem_append.mpr (Or.inl hl))).1
  have hcp2 : copyPara (p1 ++ [[]] ++ p2) ((p1 ++ [[]] ++ p2).length + 1) (p1.length + 1)
      (joinLinesList p1 ++ ['\n'])
      = some ((joinLinesList p1 ++ ['\n']) ++ joinLinesList p2, p1.length + 1 + p2.length) := by
    refine copyPara_block _ p2 [] (p1.length + 1) (joinLinesList p1 ++ ['\n'])
      ((p1 ++ [[]] ++ p2).length + 1) ?_ (by rw [List.append_nil]; exact hdropP2)
      (Or.inl rfl) (by rw [hNl]; omega)
    intro l hl
    exact (hcl l (List.mem_append.mpr (Or.inr hl))).1
  have hjllne : joinLinesList p1 ≠ [] := by
    rw [hp1e]
    exact joinLinesList_ne_nil a as
  have hrun1 : parseLoop c (p1 ++ [[]] ++ p2) ((p1 ++ [[]] ++ p2).length + 1) 0 [] [] [] []
      = parseLoop c (p1 ++ [[]] ++ p2) (p1 ++ [[]] ++ p2).length p1.length
          (joinLinesList p1) [] [] [] := by
    rw [parseLoop_para_step c _ _ 0 [] [] [] [] a hpk0
      (hcl a hamem).2.2.2.2.1 (hcl a hamem).2.2.2.2.2, hg0]
    rw [show (if ([] : Str).isEmpty then ([] : Str) else [] ++ ['\n']) = [] from rfl]
    rw [hcp1]
    dsimp only
    rw [Nat.zero_add, List.nil_append]
  obtain ⟨f2, hf2⟩ : ∃ f2, (p1 ++ [[]] ++ p2).length = f2 + 1 :=
    ⟨(p1 ++ [[]] ++ p2).length - 1, by rw [hNl]; omega⟩
  have hrun2 : parseLoop c (p1 ++ [[]] ++ p2) (f2 + 1) p1.length
      (joinLinesList p1) [] [] []
      = parseLoop c (p1 ++ [[]] ++ p2) f2 (p1.length + 1 + p2.length)
          ((joinLinesList p1 ++ ['\n']) ++ joinLinesList p2) [] [] [] := by
    rw [parseLoop_para_step c _ f2 p1.length (joinLinesList p1) [] [] [] b hpk1
      (hcl b hbmem).2.2.2.2.1 (hcl b hbmem).2.2.2.2.2, hg1]
    rw [show (if (joinLinesList p1).isEmpty then joinLinesList p1
        else joinLinesList p1 ++ ['\n']) = joinLinesList p1 ++ ['\n'] from by
      rw [if_neg (by simpa using hjllne)]]
    rw [hcp2]
  obtain ⟨f3, hf3⟩ : ∃ f3, f2 = f3 + 1 := by
    refine ⟨f2 - 1, ?_⟩
    have hplen : p1.length = as.length + 1 := by rw [hp1e]; rfl
    omega
  have hpk2 : peekUnemptyIdx (p1 ++ [[]] ++ p2) (p1.length + 1 + p2.length) = none := by
    refine peekUnemptyIdx_of_end _ _ ?_
    rw [show p1.length + 1 + p2.length = (p1 ++ [[]] ++ p2).length from by rw [hNl]]
    exact List.drop_length _
  have hrun3 : parseLoop c (p1 ++ [[]] ++ p2) (f3 + 1) (p1.length + 1 + p2.length)
      ((joinLinesList p1 ++ ['\n']) ++ joinLinesList p2) [] [] []
      = POut.ok ⟨joinLinesList (p1 ++ [[]] ++ p2),
          rustTrim ((joinLinesList p1 ++ ['\n']) ++ joinLinesList p2), [], [], []⟩ :=
    parseLoop_exit c _ f3 _ _ [] [] [] hpk2
  have hj1 := joinSep_trimEnd_fix p1 hp1 (fun l hl =>
    ⟨(hcl l (List.mem_append.mpr (Or.inl hl))).2.2.1,
     (hcl l (List.mem_append.mpr (Or.inl hl))).1⟩)
  have hj2 := joinSep_trimEnd_fix p2 hp2 (fun l hl =>
    ⟨(hcl l (List.mem_append.mpr (Or.inr hl))).2.2.1,
     (hcl l (List.mem_append.mpr (Or.inr hl))).1⟩)
  have htrim : rustTrim ((joinLinesList p1 ++ ['\n']) ++ joinLinesList p2)
      = joinSep '\n' p1 ++ '\n' :: '\n' :: joinSep '\n' p2 := by
    rw [joinLinesList_eq_joinSep p1 hp1, joinLinesList_eq_joinSep p2 hp2]
    unfold rustTrim
    rw [show ((joinSep '\n' p1 ++ ['\n']) ++ ['\n']) ++ (joinSep '\n' p2 ++ ['\n'])
        = ((((joinSep '\n' p1 ++ ['\n']) ++ ['\n']) ++ joinSep '\n' p2) ++ ['\n'])
        from by simp]
    rw [rustTrimEnd_snoc_ws _ '\n' (by decide)]
    rw [rustTrimEnd_append_of_ne_nil _ _ (by rw [hj2.1]; exact hj2.2), hj2.1]
    obtain ⟨c0, t0, hae, hc0⟩ :=
      head_not_ws_of_trimStart_fix a hane (hcl a hamem).2.2.2.1
    have hjs1 : ∃ z, joinSep '\n' p1 = a ++ z := by
      rw [hp1e]
      cases as with
      | nil => exact ⟨[], by rw [joinSep, List.append_nil]⟩
      | cons a2 as2 => exact ⟨'\n' :: joinSep '\n' (a2 :: as2), rfl⟩
    obtain ⟨z, hz⟩ := hjs1
    rw [show (((joinSep '\n' p1 ++ ['\n']) ++ ['\n']) ++ joinSep '\n' p2)
        = joinSep '\n' p1 ++ ('\n' :: '\n' :: joinSep '\n' p2) from by simp]
    rw [hz, hae]
    rw [show ((c0 :: t0) ++ z) ++ ('\n' :: '\n' :: joinSep '\n' p2)
        = c0 :: (t0 ++ z ++ ('\n' :: '\n' :: joinSep '\n' p2)) from by simp]
    rw [rustTrimStart_eq_self_of_head c0 _ hc0]
  have hstart : docStringNew c (joinSep '\n' (p1 ++ [[]] ++ p2))
      = parseLoop c (p1 ++ [[]] ++ p2) ((p1 ++ [[]] ++ p2).length + 1)
          (gobbleIdx (p1 ++ [[]] ++ p2) 0) [] [] [] [] := by
    unfold docStringNew
    dsimp only
    rw [hsd]
  rw [hstart, hg0, hrun1, hf2, hrun2, hf3, hrun3, htrim]

/-- C4 witness: the two paragraphs `"A"` and `"B"`. -/
theorem two_paragraphs_body_text_witness :
    docStringNew specCollab (joinSep '\n' (["A".data] ++ [[]] ++ ["B".data]))
      = POut.ok ⟨joinLinesList (["A".data] ++ [[]] ++ ["B".data]),
          joinSep '\n' ["A".data] ++ '\n' :: '\n' :: joinSep '\n' ["B".data],
          [], [], []⟩ :=
  two_paragraphs_body_text specCollab ["A".data] ["B".data]
    (by decide) (by decide) (by decide)
